import Mathlib

/-!
Verification of the `hdiff` library (Paul Heckel's diff algorithm, `src/lib.rs`).

The Rust source is shallowly embedded: slices become `List T`, `usize` becomes `ℕ`,
`Option<usize>` becomes `Option ℕ`, and the `HashMap<&T, TableEntry>` occurrence
table becomes a lookup function `T → Option TableEntry` (equality-keyed, which is
what a hash map provides for an `Eq + Hash` key type).  The six passes `pass1` ..
`pass6` and the driver `diff` mirror the Rust functions of the same names.

Rust indexing `a[i]` panics when out of bounds, and `table[&k]` panics on a missing
key.  The plain embedding (`pass3` .. `pass6`, `diff`) is total: every such access
is translated with `·[i]?` / option lookup, and an out-of-bounds access degrades to
a no-op.  A second, checked embedding (`pass3C` .. `pass6C`, `diffC`) returns
`none` exactly where the Rust code could panic (missing table key, out-of-bounds
index, or `usize` subtraction underflow in pass 6); the theorem `diffC_eq_diff`
below shows the checked pipeline never fails and agrees with the total one, which
is the formal counterpart of "diff is a total function".
-/

namespace HDiff

/-- Patch between two slices of objects (Rust `enum Patch`). -/
inductive Patch where
  | Create : ℕ → Patch
  | Update : ℕ → Patch
  | Move : ℕ → ℕ → Patch
  | Delete : ℕ → Patch
deriving DecidableEq, Repr

/-- Rust `struct TableEntry { nc, oc, olno }`. -/
structure TableEntry where
  nc : ℕ
  oc : ℕ
  olno : ℕ
deriving DecidableEq, Repr

/-- Rust `type Table<T> = HashMap<T, TableEntry>`, embedded as a lookup function. -/
abbrev Table (T : Type) := T → Option TableEntry

/-- Rust `type Entry = Option<usize>`. -/
abbrev Entry := Option ℕ

/-- The pair of correspondence arrays `(oa, na)`. -/
abbrev Arrays := List Entry × List Entry

variable {T : Type} [DecidableEq T]

/-- One update of the table in pass 1: increment `nc`, or insert `{nc:1,oc:0,olno:0}`. -/
def upd1 (tb : Table T) (x : T) : Table T := fun y =>
  if y = x then
    match tb x with
    | some e => some ⟨e.nc + 1, e.oc, e.olno⟩
    | none => some ⟨1, 0, 0⟩
  else tb y

/-- Rust `pass1`: scan `new`, counting occurrences into the table. -/
def pass1 : List T → Table T → Table T
  | [], tb => tb
  | x :: xs, tb => pass1 xs (upd1 tb x)

/-- One update of the table in pass 2 at old-index `i`: increment `oc` and
overwrite `olno` with `i`, or insert `{nc:0,oc:1,olno:i}`. -/
def upd2 (tb : Table T) (i : ℕ) (x : T) : Table T := fun y =>
  if y = x then
    match tb x with
    | some e => some ⟨e.nc, e.oc + 1, i⟩
    | none => some ⟨0, 1, i⟩
  else tb y

/-- Pass 2 loop with explicit running index (Rust `old.iter().enumerate()`). -/
def pass2Aux : List T → ℕ → Table T → Table T
  | [], _, tb => tb
  | x :: xs, i, tb => pass2Aux xs (i + 1) (upd2 tb i x)

/-- Rust `pass2`: scan `old`, counting occurrences and recording line numbers. -/
def pass2 (old : List T) (tb : Table T) : Table T := pass2Aux old 0 tb

/-- Body of the pass-3 loop at index `i` (Rust: `let tx = &table[&new[i]]; if
tx.nc == 1 && tx.nc == tx.oc { na[i] = Some(tx.olno); oa[tx.olno] = Some(i) }`).
State `p = (oa, na)`.  Out-of-range accesses, which cannot occur in the pipeline
(`na.length = new.length` there, see `pass3C`), are no-ops. -/
def pass3Step (new : List T) (t : Table T) (p : Arrays) (i : ℕ) : Arrays :=
  match new[i]? with
  | some x =>
    match t x with
    | some tx =>
      if tx.nc = 1 ∧ tx.nc = tx.oc then (p.1.set tx.olno (some i), p.2.set i (some tx.olno))
      else p
    | none => p
  | none => p

/-- Rust `pass3`: match the lines that occur exactly once in each file. -/
def pass3 (new : List T) (t : Table T) (p : Arrays) : Arrays :=
  (List.range p.2.length).foldl (pass3Step new t) p

/-- Body of the pass-4 loop at index `i` (Rust: if `na[i] = Some(j)`,
`j + 1 < oa.len()`, `na[i+1]` and `oa[j+1]` unset and `new[i+1] == old[j+1]`,
extend the match forward). -/
def pass4Step (old new : List T) (p : Arrays) (i : ℕ) : Arrays :=
  match p.2[i]? with
  | some (some j) =>
    if j + 1 < p.1.length then
      match p.2[i + 1]?, p.1[j + 1]? with
      | some none, some none =>
        match new[i + 1]?, old[j + 1]? with
        | some a, some b =>
          if a = b then (p.1.set (j + 1) (some (i + 1)), p.2.set (i + 1) (some (j + 1)))
          else p
        | _, _ => p
      | _, _ => p
    else p
  | _ => p

/-- Rust `pass4`: forward adjacency extension, `i` ascending over `0 .. na.len()-1`.
(The Rust early return on empty `na` is the empty index range here.) -/
def pass4 (old new : List T) (p : Arrays) : Arrays :=
  if p.2.isEmpty then p else (List.range (p.2.length - 1)).foldl (pass4Step old new) p

/-- Body of the pass-5 loop at index `i` (Rust: if `na[i] = Some(j)`, `j > 0`,
`na[i-1]` and `oa[j-1]` unset and `new[i-1] == old[j-1]`, extend backward). -/
def pass5Step (old new : List T) (p : Arrays) (i : ℕ) : Arrays :=
  match p.2[i]? with
  | some (some j) =>
    if 0 < j then
      match p.2[i - 1]?, p.1[j - 1]? with
      | some none, some none =>
        match new[i - 1]?, old[j - 1]? with
        | some a, some b =>
          if a = b then (p.1.set (j - 1) (some (i - 1)), p.2.set (i - 1) (some (j - 1)))
          else p
        | _, _ => p
      | _, _ => p
    else p
  | _ => p

/-- Rust `pass5`: backward adjacency extension, `i` descending over `(1..na.len()).rev()`. -/
def pass5 (old new : List T) (p : Arrays) : Arrays :=
  ((List.range' 1 (p.2.length - 1)).reverse).foldl (pass5Step old new) p

/-- First loop of Rust `pass6` starting at old-index `i` with running deletion
counter `offset`: returns `(delete_offsets, delete patches)`. -/
def pass6FstAux : ℕ → ℕ → List Entry → List ℕ × List Patch
  | _, _, [] => ([], [])
  | i, offset, none :: xs =>
    let r := pass6FstAux (i + 1) (offset + 1) xs
    (offset :: r.1, Patch.Delete i :: r.2)
  | i, offset, some _ :: xs =>
    let r := pass6FstAux (i + 1) offset xs
    (offset :: r.1, r.2)

/-- The `Update` emission of pass 6 for a matched pair `(j, i)` (Rust:
`if old[j] != new[i] { result.push(Update(i)) }`). -/
def updOf (old new : List T) (j i : ℕ) : List Patch :=
  match old[j]?, new[i]? with
  | some a, some b => if a = b then [] else [Patch.Update i]
  | _, _ => []

/-- The `Move` emission of pass 6 for a matched pair `(j, i)` under creation
counter `offset` (Rust: `if j + offset - delete_offsets[j] != i { result.push(Move(j, i)) }`). -/
def movOf (offs : List ℕ) (j offset i : ℕ) : List Patch :=
  if j + offset - offs.getD j 0 = i then [] else [Patch.Move j i]

/-- Second loop of Rust `pass6` starting at new-index `i` with running creation
counter `offset`: emits `Update`/`Move` for matched entries and `Create` for
unmatched ones. -/
def pass6SndAux (old new : List T) (offs : List ℕ) : ℕ → ℕ → List Entry → List Patch
  | _, _, [] => []
  | i, offset, none :: xs => Patch.Create i :: pass6SndAux old new offs (i + 1) (offset + 1) xs
  | i, offset, some j :: xs =>
    updOf old new j i ++ movOf offs j offset i ++ pass6SndAux old new offs (i + 1) offset xs

/-- Rust `pass6`: emit the Difference from the finished correspondence arrays. -/
def pass6 (old new : List T) (oa na : List Entry) : List Patch :=
  let r := pass6FstAux 0 0 oa
  r.2 ++ pass6SndAux old new r.1 0 0 na

/-- The initial correspondence arrays of `diff`: `vec![None; len]` for each side. -/
def initArrays (old new : List T) : Arrays :=
  (List.replicate old.length (none : Entry), List.replicate new.length (none : Entry))

/-- The occurrence table of `diff` after passes 1 and 2. -/
def tableOf (old new : List T) : Table T := pass2 old (pass1 new (fun _ => none))

/-- Pipeline state after pass 3. -/
def state3 (old new : List T) : Arrays := pass3 new (tableOf old new) (initArrays old new)

/-- Pipeline state after pass 4. -/
def state4 (old new : List T) : Arrays := pass4 old new (state3 old new)

/-- Pipeline state after pass 5. -/
def state5 (old new : List T) : Arrays := pass5 old new (state4 old new)

/-- Rust `diff`: run the six passes. -/
def diff (old new : List T) : List Patch :=
  pass6 old new (state5 old new).1 (state5 old new).2

/-!
The checked embedding: identical control flow, but every operation that can
panic in Rust — `table[&k]` on a missing key, slice indexing out of bounds,
`usize` subtraction underflow — returns `none` instead.
-/

/-- Checked body of the pass-3 loop: fails where Rust would panic
(`table[&new[i]]` missing, or `oa[tx.olno]` / `na[i]` out of bounds). -/
def pass3CStep (new : List T) (t : Table T) (st : Option Arrays) (i : ℕ) : Option Arrays := do
  let p ← st
  let x ← new[i]?
  let tx ← t x
  if tx.nc = 1 ∧ tx.nc = tx.oc then
    if tx.olno < p.1.length ∧ i < p.2.length then
      pure (p.1.set tx.olno (some i), p.2.set i (some tx.olno))
    else none
  else pure p

/-- Checked pass 3. -/
def pass3C (new : List T) (t : Table T) (p : Arrays) : Option Arrays :=
  (List.range p.2.length).foldl (pass3CStep new t) (some p)

/-- Checked body of the pass-4 loop, with the Rust short-circuit evaluation
order: `na[i]`, then `j + 1 < oa.len()`, then `na[i+1]`, `oa[j+1]`,
`new[i+1]`, `old[j+1]`. -/
def pass4CStep (old new : List T) (st : Option Arrays) (i : ℕ) : Option Arrays := do
  let p ← st
  let e ← p.2[i]?
  match e with
  | some j =>
    if j + 1 < p.1.length then do
      let v ← p.2[i + 1]?
      match v with
      | none => do
        let w ← p.1[j + 1]?
        match w with
        | none => do
          let a ← new[i + 1]?
          let b ← old[j + 1]?
          if a = b then pure (p.1.set (j + 1) (some (i + 1)), p.2.set (i + 1) (some (j + 1)))
          else pure p
        | some _ => pure p
      | some _ => pure p
    else pure p
  | none => pure p

/-- Checked pass 4. -/
def pass4C (old new : List T) (p : Arrays) : Option Arrays :=
  (List.range (p.2.length - 1)).foldl (pass4CStep old new) (some p)

/-- Checked body of the pass-5 loop: `na[i]`, then `j > 0`, then `na[i-1]`,
`oa[j-1]`, `new[i-1]`, `old[j-1]`. -/
def pass5CStep (old new : List T) (st : Option Arrays) (i : ℕ) : Option Arrays := do
  let p ← st
  let e ← p.2[i]?
  match e with
  | some j =>
    if 0 < j then do
      let v ← p.2[i - 1]?
      match v with
      | none => do
        let w ← p.1[j - 1]?
        match w with
        | none => do
          let a ← new[i - 1]?
          let b ← old[j - 1]?
          if a = b then pure (p.1.set (j - 1) (some (i - 1)), p.2.set (i - 1) (some (j - 1)))
          else pure p
        | some _ => pure p
      | some _ => pure p
    else pure p
  | none => pure p

/-- Checked pass 5. -/
def pass5C (old new : List T) (p : Arrays) : Option Arrays :=
  ((List.range' 1 (p.2.length - 1)).reverse).foldl (pass5CStep old new) (some p)

/-- Checked second loop of pass 6: fails where Rust would panic — `old[j]` or
`new[i]` or `delete_offsets[j]` out of bounds, or when
`j + offset - delete_offsets[j]` would underflow in `usize` arithmetic. -/
def pass6SndC (old new : List T) (offs : List ℕ) : ℕ → ℕ → List Entry → Option (List Patch)
  | _, _, [] => some []
  | i, offset, none :: xs => do
    let rest ← pass6SndC old new offs (i + 1) (offset + 1) xs
    pure (Patch.Create i :: rest)
  | i, offset, some j :: xs => do
    let a ← old[j]?
    let b ← new[i]?
    let u : List Patch := if a = b then [] else [Patch.Update i]
    let dj ← offs[j]?
    if dj ≤ j + offset then do
      let m : List Patch := if j + offset - dj = i then [] else [Patch.Move j i]
      let rest ← pass6SndC old new offs (i + 1) offset xs
      pure (u ++ m ++ rest)
    else none

/-- Checked pass 6 (the first loop only pushes and counts, so it cannot fail). -/
def pass6C (old new : List T) (oa na : List Entry) : Option (List Patch) := do
  let r := pass6FstAux 0 0 oa
  let snd ← pass6SndC old new r.1 0 0 na
  pure (r.2 ++ snd)

/-- Checked `diff`: `none` wherever the Rust pipeline could panic. -/
def diffC (old new : List T) : Option (List Patch) := do
  let p3 ← pass3C new (tableOf old new) (initArrays old new)
  let p4 ← pass4C old new p3
  let p5 ← pass5C old new p4
  pass6C old new p5.1 p5.2

/-!
Specification vocabulary used by the theorems below.
-/

/-- Index of the last occurrence of `x` in a list whose first element sits at
absolute position `i`; `d` is the default returned when `x` does not occur.
After pass 2, `olno` of an element present in `old` is exactly
`lastIdxFrom x 0 old d` (see `tableOf_eq`). -/
def lastIdxFrom (x : T) : ℕ → List T → ℕ → ℕ
  | _, [], d => d
  | i, y :: ys, d => lastIdxFrom x (i + 1) ys (if y = x then i else d)

/-- The match pass 3 assigns to an element `x` of `new`: `some e.olno` when the
table entry of `x` has `nc = 1 ∧ nc = oc`, otherwise `none`. -/
def uMatch (t : Table T) (x : T) : Option ℕ :=
  match t x with
  | some e => if e.nc = 1 ∧ e.nc = e.oc then some e.olno else none
  | none => none

/-- The central invariant of the correspondence arrays `p = (oa, na)`:
both have the input lengths, matched pairs are symmetric, and matched
positions hold equal elements. -/
def Inv (old new : List T) (p : Arrays) : Prop :=
  p.1.length = old.length ∧ p.2.length = new.length ∧
  (∀ i j : ℕ, p.2[i]? = some (some j) → p.1[j]? = some (some i) ∧ old[j]? = new[i]?) ∧
  (∀ j i : ℕ, p.1[j]? = some (some i) → p.2[i]? = some (some j))

/-- Both correspondence arrays have the lengths of the inputs. -/
def Dims (old new : List T) (p : Arrays) : Prop :=
  p.1.length = old.length ∧ p.2.length = new.length

/-- Loop invariant of pass 3 before processing new-index `k`: positions `≥ k`
of `na` are still unmatched, positions `< k` hold the unique-match of their
element, and `oa` holds exactly the reverse pairings created so far. -/
def Q3 (old new : List T) (t : Table T) (k : ℕ) (p : Arrays) : Prop :=
  Dims old new p ∧
  (∀ i : ℕ, k ≤ i → p.2[i]? = if i < new.length then some none else none) ∧
  (∀ i : ℕ, i < k → p.2[i]? = (new[i]?).map (fun x => uMatch t x)) ∧
  (∀ j v : ℕ, p.1[j]? = some (some v) → v < k ∧ ∃ x, new[v]? = some x ∧ uMatch t x = some j) ∧
  (∀ (v : ℕ) (x : T) (j : ℕ), v < k → new[v]? = some x → uMatch t x = some j →
    p.1[j]? = some (some v))

/-- Shape of the deletion section of the output: only `Delete` patches, with
strictly increasing old indices, all `≥ i`. -/
inductive DelShape : ℕ → List Patch → Prop where
  | nil : ∀ i, DelShape i []
  | skip : ∀ i ps, DelShape (i + 1) ps → DelShape i ps
  | del : ∀ i ps, DelShape (i + 1) ps → DelShape i (Patch.Delete i :: ps)

/-- Shape of the creation/update/move section of the output: one block per new
index `i` in increasing order — either a single `Create i`, or an optional
`Update i` followed by an optional `Move _ i`. -/
inductive CShape : ℕ → List Patch → Prop where
  | nil : ∀ i, CShape i []
  | create : ∀ i ps, CShape (i + 1) ps → CShape i (Patch.Create i :: ps)
  | matched : ∀ i ps u m, (u = [] ∨ u = [Patch.Update i]) →
      (m = [] ∨ ∃ j, m = [Patch.Move j i]) → CShape (i + 1) ps → CShape i (u ++ m ++ ps)

/-!
Generic lemmas about `List.foldl`.
-/

theorem foldl_keep {σ α : Type _} (P : σ → Prop) (f : σ → α → σ) (l : List α) (s : σ)
    (hs : P s) (hstep : ∀ t a, a ∈ l → P t → P (f t a)) : P (l.foldl f s) := by
  induction l generalizing s with
  | nil => exact hs
  | cons a l ih =>
    exact ih (f s a) (hstep s a (List.mem_cons_self a l) hs)
      (fun t b hb ht => hstep t b (List.mem_cons_of_mem a hb) ht)

theorem foldl_fixed {σ α : Type _} (f : σ → α → σ) (l : List α) (s : σ)
    (h : ∀ a, a ∈ l → f s a = s) : l.foldl f s = s := by
  induction l with
  | nil => rfl
  | cons a l ih =>
    rw [List.foldl_cons, h a (List.mem_cons_self a l)]
    exact ih (fun b hb => h b (List.mem_cons_of_mem a hb))

theorem foldl_option_eq {σ α : Type _} (P : σ → Prop) (f : σ → α → σ)
    (g : Option σ → α → Option σ) (l : List α) (s : σ) (hs : P s)
    (hg : ∀ t a, a ∈ l → P t → g (some t) a = some (f t a))
    (hp : ∀ t a, a ∈ l → P t → P (f t a)) :
    l.foldl g (some s) = some (l.foldl f s) := by
  induction l generalizing s with
  | nil => rfl
  | cons a l ih =>
    rw [List.foldl_cons, List.foldl_cons, hg s a (List.mem_cons_self a l) hs]
    exact ih (f s a) (hp s a (List.mem_cons_self a l) hs)
      (fun t b hb ht => hg t b (List.mem_cons_of_mem a hb) ht)
      (fun t b hb ht => hp t b (List.mem_cons_of_mem a hb) ht)

theorem foldl_range'_ind {σ : Type _} (Q : ℕ → σ → Prop) (f : σ → ℕ → σ) :
    ∀ (n i : ℕ) (s : σ), Q i s →
      (∀ k t, i ≤ k → k < i + n → Q k t → Q (k + 1) (f t k)) →
      Q (i + n) ((List.range' i n).foldl f s) := by
  intro n
  induction n with
  | zero => intro i s h _; exact h
  | succ n ih =>
    intro i s h hstep
    rw [List.range'_succ, List.foldl_cons]
    have h2 := ih (i + 1) (f s i) (hstep i s le_rfl (by omega) h)
      (fun k t hk hk2 hq => hstep k t (by omega) (by omega) hq)
    have heq : i + 1 + n = i + (n + 1) := by omega
    rw [heq] at h2
    exact h2

/-!
Characterization of the occurrence table after passes 1 and 2.
-/

theorem pass1_char (l : List T) : ∀ (tb : Table T) (x : T),
    pass1 l tb x =
      match tb x with
      | some e => some ⟨e.nc + l.count x, e.oc, e.olno⟩
      | none => if l.count x = 0 then none else some ⟨l.count x, 0, 0⟩ := by
  induction l with
  | nil =>
    intro tb x
    cases htb : tb x with
    | some e => simp [pass1, htb]
    | none => simp [pass1, htb]
  | cons y ys ih =>
    intro tb x
    show pass1 ys (upd1 tb y) x = _
    rw [ih]
    by_cases hxy : x = y
    · subst hxy
      cases htb : tb x with
      | some e =>
        have hu : upd1 tb x x = some ⟨e.nc + 1, e.oc, e.olno⟩ := by simp [upd1, htb]
        rw [hu]
        simp [List.count_cons]
        omega
      | none =>
        have hu : upd1 tb x x = some ⟨1, 0, 0⟩ := by simp [upd1, htb]
        rw [hu]
        simp [List.count_cons]
        omega
    · have hu : upd1 tb y x = tb x := by simp [upd1, hxy]
      rw [hu]
      have hc : (y :: ys).count x = ys.count x := by
        simp [List.count_cons, hxy]
      cases htb : tb x with
      | some e => simp [htb, hc]
      | none => simp [htb, hc]

theorem pass2Aux_char (l : List T) : ∀ (i : ℕ) (tb : Table T) (x : T),
    pass2Aux l i tb x =
      match tb x with
      | some e => some ⟨e.nc, e.oc + l.count x, lastIdxFrom x i l e.olno⟩
      | none => if l.count x = 0 then none else some ⟨0, l.count x, lastIdxFrom x i l 0⟩ := by
  induction l with
  | nil =>
    intro i tb x
    cases htb : tb x with
    | some e => simp [pass2Aux, htb, lastIdxFrom]
    | none => simp [pass2Aux, htb, lastIdxFrom]
  | cons y ys ih =>
    intro i tb x
    show pass2Aux ys (i + 1) (upd2 tb i y) x = _
    rw [ih]
    by_cases hxy : x = y
    · subst hxy
      have hl : ∀ d : ℕ, lastIdxFrom x i (x :: ys) d = lastIdxFrom x (i + 1) ys i := by
        intro d; simp [lastIdxFrom]
      cases htb : tb x with
      | some e =>
        have hu : upd2 tb i x x = some ⟨e.nc, e.oc + 1, i⟩ := by simp [upd2, htb]
        rw [hu]
        simp [List.count_cons, hl]
        omega
      | none =>
        have hu : upd2 tb i x x = some ⟨0, 1, i⟩ := by simp [upd2, htb]
        rw [hu]
        simp [List.count_cons, hl]
        omega
    · have hu : upd2 tb i y x = tb x := by simp [upd2, hxy]
      rw [hu]
      have hc : (y :: ys).count x = ys.count x := by
        simp [List.count_cons, hxy]
      have hl : ∀ d : ℕ, lastIdxFrom x i (y :: ys) d = lastIdxFrom x (i + 1) ys d := by
        intro d
        show lastIdxFrom x (i + 1) ys (if y = x then i else d) = lastIdxFrom x (i + 1) ys d
        rw [if_neg (fun h : y = x => hxy h.symm)]
      cases htb : tb x with
      | some e => simp [htb, hc, hl]
      | none => simp [htb, hc, hl]

theorem tableOf_eq (old new : List T) (x : T) :
    tableOf old new x =
      if new.count x = 0 ∧ old.count x = 0 then none
      else some ⟨new.count x, old.count x, lastIdxFrom x 0 old 0⟩ := by
  show pass2Aux old 0 (pass1 new (fun _ => none)) x = _
  rw [pass2Aux_char, pass1_char]
  by_cases hn : new.count x = 0
  · simp only [hn, if_pos rfl]
    by_cases ho : old.count x = 0
    · simp [hn, ho]
    · simp [hn, ho]
  · simp only [hn, if_neg hn]
    have : ¬(new.count x = 0 ∧ old.count x = 0) := fun h => hn h.1
    simp [this, hn]

theorem lastIdxFrom_not_mem (x : T) : ∀ (l : List T) (i d : ℕ), x ∉ l →
    lastIdxFrom x i l d = d := by
  intro l
  induction l with
  | nil => intro i d _; rfl
  | cons y ys ih =>
    intro i d hx
    have hxy : ¬y = x := fun h => hx (h ▸ List.mem_cons_self y ys)
    show lastIdxFrom x (i + 1) ys (if y = x then i else d) = d
    rw [if_neg hxy]
    exact ih (i + 1) d (fun h => hx (List.mem_cons_of_mem y h))

theorem lastIdxFrom_spec (x : T) : ∀ (l : List T) (i d : ℕ), x ∈ l →
    ∃ m, m < l.length ∧ lastIdxFrom x i l d = i + m ∧ l[m]? = some x ∧
      ∀ k, m < k → l[k]? ≠ some x := by
  intro l
  induction l with
  | nil => intro i d h; exact absurd h (List.not_mem_nil x)
  | cons y ys ih =>
    intro i d hmem
    by_cases hys : x ∈ ys
    · obtain ⟨m, hm, hval, hget, hlast⟩ := ih (i + 1) (if y = x then i else d) hys
      refine ⟨m + 1, by simpa using hm, ?_, ?_, ?_⟩
      · show lastIdxFrom x (i + 1) ys (if y = x then i else d) = i + (m + 1)
        rw [hval]; omega
      · simpa using hget
      · intro k hk
        match k, hk with
        | k + 1, hk =>
          have : ys[k]? ≠ some x := hlast k (by omega)
          simpa using this
    · have hxy : y = x := by
        rcases List.mem_cons.mp hmem with h | h
        · exact h.symm
        · exact absurd h hys
      refine ⟨0, by simp, ?_, by simpa using hxy, ?_⟩
      · show lastIdxFrom x (i + 1) ys (if y = x then i else d) = i + 0
        rw [if_pos hxy, lastIdxFrom_not_mem x ys (i + 1) i hys]
        omega
      · intro k hk
        match k, hk with
        | k + 1, _ =>
          intro hcon
          exact hys (List.getElem?_mem (by simpa using hcon))

theorem tableOf_mem (old new : List T) (x : T) (h : x ∈ new ∨ x ∈ old) :
    ∃ e, tableOf old new x = some e ∧ e.nc = new.count x ∧ e.oc = old.count x := by
  rw [tableOf_eq]
  have : ¬(new.count x = 0 ∧ old.count x = 0) := by
    rcases h with h | h
    · intro hc
      exact absurd (List.count_pos_iff.mpr h) (by omega)
    · intro hc
      exact absurd (List.count_pos_iff.mpr h) (by omega)
  rw [if_neg this]
  exact ⟨_, rfl, rfl, rfl⟩

theorem tableOf_char (old new : List T) (x : T) (e : TableEntry)
    (h : tableOf old new x = some e) :
    e.nc = new.count x ∧ e.oc = old.count x ∧
      (x ∈ old → e.olno < old.length ∧ old[e.olno]? = some x ∧
        ∀ k, e.olno < k → old[k]? ≠ some x) := by
  rw [tableOf_eq] at h
  by_cases hc : new.count x = 0 ∧ old.count x = 0
  · rw [if_pos hc] at h; exact absurd h (by simp)
  · rw [if_neg hc] at h
    have he : e = ⟨new.count x, old.count x, lastIdxFrom x 0 old 0⟩ := by
      injection h with h'; exact h'.symm
    subst he
    refine ⟨rfl, rfl, fun hmem => ?_⟩
    obtain ⟨m, hm, hval, hget, hlast⟩ := lastIdxFrom_spec x old 0 0 hmem
    simp only [hval, Nat.zero_add]
    exact ⟨hm, hget, hlast⟩

theorem count_two_of_getElem (l : List T) (x : T) (i i' : ℕ) (hlt : i < i')
    (h1 : l[i]? = some x) (h2 : l[i']? = some x) : 2 ≤ l.count x := by
  have hsplit : l = l.take (i + 1) ++ l.drop (i + 1) := (List.take_append_drop (i + 1) l).symm
  have hmem1 : x ∈ l.take (i + 1) := by
    apply List.getElem?_mem (n := i)
    rw [List.getElem?_take_of_lt (by omega)]
    exact h1
  have hmem2 : x ∈ l.drop (i + 1) := by
    apply List.getElem?_mem (n := i' - (i + 1))
    rw [List.getElem?_drop]
    have heq : i + 1 + (i' - (i + 1)) = i' := by omega
    rw [heq]
    exact h2
  have c1 : 0 < (l.take (i + 1)).count x := List.count_pos_iff.mpr hmem1
  have c2 : 0 < (l.drop (i + 1)).count x := List.count_pos_iff.mpr hmem2
  calc 2 ≤ (l.take (i + 1)).count x + (l.drop (i + 1)).count x := by omega
  _ = l.count x := by rw [← List.count_append, ← hsplit]

theorem uMatch_spec (old new : List T) (x : T) (j : ℕ)
    (h : uMatch (tableOf old new) x = some j) :
    new.count x = 1 ∧ old.count x = 1 ∧ j < old.length ∧ old[j]? = some x ∧
      ∀ k, j < k → old[k]? ≠ some x := by
  unfold uMatch at h
  cases ht : tableOf old new x with
  | none => rw [ht] at h; exact absurd h (by simp)
  | some e =>
    rw [ht] at h
    have h2 : (if e.nc = 1 ∧ e.nc = e.oc then some e.olno else none) = some j := h
    by_cases hcond : e.nc = 1 ∧ e.nc = e.oc
    · rw [if_pos hcond] at h2
      have hj : e.olno = j := by injection h2
      obtain ⟨hnc, hoc, hlast⟩ := tableOf_char old new x e ht
      have hcn : new.count x = 1 := hnc ▸ hcond.1
      have hco : old.count x = 1 := by omega
      have hmem : x ∈ old := List.count_pos_iff.mp (by omega)
      obtain ⟨hb, hg, hl⟩ := hlast hmem
      exact ⟨hcn, hco, hj ▸ hb, hj ▸ hg, hj ▸ hl⟩
    · rw [if_neg hcond] at h2
      exact absurd h2 (by simp)

theorem uMatch_inj (old new : List T) (i i' : ℕ) (x x' : T) (j : ℕ)
    (hi : new[i]? = some x) (hi' : new[i']? = some x')
    (h : uMatch (tableOf old new) x = some j) (h' : uMatch (tableOf old new) x' = some j) :
    i = i' := by
  obtain ⟨hc1, _, _, hg, _⟩ := uMatch_spec old new x j h
  obtain ⟨_, _, _, hg', _⟩ := uMatch_spec old new x' j h'
  have hxx : x = x' := by
    rw [hg] at hg'
    injection hg'
  subst hxx
  by_contra hne
  rcases Nat.lt_or_ge i i' with hlt | hge
  · have := count_two_of_getElem new x i i' hlt hi hi'
    omega
  · have hlt : i' < i := by omega
    have := count_two_of_getElem new x i' i hlt hi' hi
    omega

/-!
Pass 3 establishes its loop invariant `Q3`.
-/

theorem Q3_noop (old new : List T) (k : ℕ) (p : Arrays) (hk : k < new.length)
    (h : Q3 old new (tableOf old new) k p) (x : T) (hx : new[k]? = some x)
    (hum : uMatch (tableOf old new) x = none) :
    Q3 old new (tableOf old new) (k + 1) p := by
  obtain ⟨⟨hlen1, hlen2⟩, hun, hdone, hoa1, hoa2⟩ := h
  refine ⟨⟨hlen1, hlen2⟩, fun i hi => hun i (by omega), ?_, fun j v hv => ?_, ?_⟩
  · intro i hi
    rcases Nat.lt_or_ge i k with hik | hik
    · exact hdone i hik
    · have hik : i = k := by omega
      subst hik
      rw [hun i le_rfl, if_pos hk, hx]
      simp [hum]
  · obtain ⟨hvk, hex⟩ := hoa1 j v hv
    exact ⟨by omega, hex⟩
  · intro v x' j hv hx' hum'
    rcases Nat.lt_or_ge v k with hvk | hvk
    · exact hoa2 v x' j hvk hx' hum'
    · have hvk : v = k := by omega
      subst hvk
      have hxx : x' = x := by
        rw [hx] at hx'
        injection hx' with hh
        exact hh.symm
      subst hxx
      rw [hum] at hum'
      exact absurd hum' (by simp)

theorem Q3_set (old new : List T) (k : ℕ) (p : Arrays) (hk : k < new.length)
    (h : Q3 old new (tableOf old new) k p) (x : T) (hx : new[k]? = some x) (j : ℕ)
    (hum : uMatch (tableOf old new) x = some j) :
    Q3 old new (tableOf old new) (k + 1) (p.1.set j (some k), p.2.set k (some j)) := by
  obtain ⟨⟨hlen1, hlen2⟩, hun, hdone, hoa1, hoa2⟩ := h
  obtain ⟨hc1, hc2, hjlt, hgj, _⟩ := uMatch_spec old new x j hum
  have hjlt1 : j < p.1.length := by omega
  have hklt2 : k < p.2.length := by omega
  refine ⟨⟨by simpa using hlen1, by simpa using hlen2⟩, ?_, ?_, ?_, ?_⟩
  · intro i hi
    show (p.2.set k (some j))[i]? = _
    rw [List.getElem?_set_ne (by omega : k ≠ i)]
    exact hun i (by omega)
  · intro i hi
    show (p.2.set k (some j))[i]? = _
    rcases Nat.lt_or_ge i k with hik | hik
    · rw [List.getElem?_set_ne (by omega : k ≠ i)]
      exact hdone i hik
    · have hik : i = k := by omega
      subst hik
      rw [List.getElem?_set_self hklt2, hx]
      simp [hum]
  · intro j' v hv
    replace hv : (p.1.set j (some k))[j']? = some (some v) := hv
    by_cases hjj : j' = j
    · subst hjj
      rw [List.getElem?_set_self hjlt1] at hv
      have hvk : v = k := by
        have h1 : (some k : Entry) = some v := by injection hv
        injection h1 with h2; omega
      subst hvk
      exact ⟨by omega, x, hx, hum⟩
    · rw [List.getElem?_set_ne (fun hh => hjj hh.symm)] at hv
      obtain ⟨hvk, hex⟩ := hoa1 j' v hv
      exact ⟨by omega, hex⟩
  · intro v x' j' hv hx' hum'
    show (p.1.set j (some k))[j']? = some (some v)
    rcases Nat.lt_or_ge v k with hvk | hvk
    · by_cases hjj : j' = j
      · subst hjj
        have hvk2 : v = k := uMatch_inj old new v k x' x j' hx' hx hum' hum
        omega
      · rw [List.getElem?_set_ne (fun hh => hjj hh.symm)]
        exact hoa2 v x' j' hvk hx' hum'
    · have hvk2 : v = k := by omega
      subst hvk2
      have hxx : x' = x := by
        rw [hx] at hx'
        injection hx' with hh
        exact hh.symm
      subst hxx
      have hjj : j' = j := by
        rw [hum] at hum'
        injection hum' with hh
        exact hh.symm
      subst hjj
      rw [List.getElem?_set_self hjlt1]

theorem pass3Step_Q3 (old new : List T) (k : ℕ) (p : Arrays)
    (hk : k < new.length) (h : Q3 old new (tableOf old new) k p) :
    Q3 old new (tableOf old new) (k + 1) (pass3Step new (tableOf old new) p k) := by
  have hx : new[k]? = some (new[k]) := List.getElem?_eq_getElem hk
  have hstep : pass3Step new (tableOf old new) p k =
      (match tableOf old new (new[k]) with
       | some tx =>
         if tx.nc = 1 ∧ tx.nc = tx.oc then (p.1.set tx.olno (some k), p.2.set k (some tx.olno))
         else p
       | none => p) := by
    unfold pass3Step
    rw [hx]
  rw [hstep]
  cases ht : tableOf old new (new[k]) with
  | none =>
    exact Q3_noop old new k p hk h (new[k]) hx (by unfold uMatch; rw [ht])
  | some tx =>
    by_cases hcond : tx.nc = 1 ∧ tx.nc = tx.oc
    · show Q3 old new (tableOf old new) (k + 1)
        (if tx.nc = 1 ∧ tx.nc = tx.oc then (p.1.set tx.olno (some k), p.2.set k (some tx.olno))
         else p)
      rw [if_pos hcond]
      refine Q3_set old new k p hk h (new[k]) hx tx.olno ?_
      unfold uMatch
      rw [ht]
      show (if tx.nc = 1 ∧ tx.nc = tx.oc then some tx.olno else none) = some tx.olno
      rw [if_pos hcond]
    · show Q3 old new (tableOf old new) (k + 1)
        (if tx.nc = 1 ∧ tx.nc = tx.oc then (p.1.set tx.olno (some k), p.2.set k (some tx.olno))
         else p)
      rw [if_neg hcond]
      refine Q3_noop old new k p hk h (new[k]) hx ?_
      unfold uMatch
      rw [ht]
      show (if tx.nc = 1 ∧ tx.nc = tx.oc then some tx.olno else none) = none
      rw [if_neg hcond]

theorem Q3_init (old new : List T) : Q3 old new (tableOf old new) 0 (initArrays old new) := by
  refine ⟨⟨by simp [initArrays], by simp [initArrays]⟩, ?_, ?_, ?_, ?_⟩
  · intro i _
    show (List.replicate new.length (none : Entry))[i]? = _
    rw [List.getElem?_replicate]
  · intro i hi; omega
  · intro j v hv
    replace hv : (List.replicate old.length (none : Entry))[j]? = some (some v) := hv
    rw [List.getElem?_replicate] at hv
    by_cases hj : j < old.length
    · rw [if_pos hj] at hv
      have h1 : (none : Entry) = some v := by injection hv
      exact absurd h1 (by simp)
    · rw [if_neg hj] at hv
      exact absurd hv (by simp)
  · intro v x j hv; omega

theorem state3_Q3 (old new : List T) :
    Q3 old new (tableOf old new) new.length (state3 old new) := by
  have h := foldl_range'_ind (Q3 old new (tableOf old new))
    (pass3Step new (tableOf old new)) new.length 0 (initArrays old new)
    (Q3_init old new)
    (fun k t _ hk2 hq => pass3Step_Q3 old new k t (by omega) hq)
  rw [Nat.zero_add] at h
  show Q3 _ _ _ _ (pass3 new (tableOf old new) (initArrays old new))
  unfold pass3
  have hlen : (initArrays old new).2.length = new.length := by simp [initArrays]
  rw [hlen, List.range_eq_range']
  exact h

theorem state3_na (old new : List T) (i : ℕ) :
    (state3 old new).2[i]? = (new[i]?).map (fun x => uMatch (tableOf old new) x) := by
  rcases Nat.lt_or_ge i new.length with hi | hi
  · exact (state3_Q3 old new).2.2.1 i hi
  · have h1 := (state3_Q3 old new).2.1 i hi
    rw [if_neg (by omega)] at h1
    rw [h1, List.getElem?_eq_none (by omega : new.length ≤ i)]
    rfl

theorem Inv_state3 (old new : List T) : Inv old new (state3 old new) := by
  obtain ⟨⟨hl1, hl2⟩, hun, hdone, hoa1, hoa2⟩ := state3_Q3 old new
  refine ⟨hl1, hl2, ?_, ?_⟩
  · intro i j hij
    have hi : i < new.length := by
      by_contra hcon
      rw [hun i (by omega), if_neg (by omega)] at hij
      exact absurd hij (by simp)
    rw [hdone i hi] at hij
    cases hx : new[i]? with
    | none => rw [hx] at hij; exact absurd hij (by simp)
    | some x =>
      rw [hx] at hij
      have hum : uMatch (tableOf old new) x = some j := by
        have h1 : some (uMatch (tableOf old new) x) = some (some j) := hij
        injection h1
      constructor
      · exact hoa2 i x j hi hx hum
      · obtain ⟨_, _, _, hgj, _⟩ := uMatch_spec old new x j hum
        exact hgj
  · intro j i hji
    obtain ⟨hik, x, hx, hum⟩ := hoa1 j i hji
    rw [hdone i hik, hx]
    simp [hum]

/-!
Passes 4 and 5 preserve the invariant.
-/

theorem Inv_extend (old new : List T) (p : Arrays) (h : Inv old new p) (ii jj : ℕ)
    (hoa : p.1[jj]? = some none) (hna : p.2[ii]? = some none)
    (heq : old[jj]? = new[ii]?) :
    Inv old new (p.1.set jj (some ii), p.2.set ii (some jj)) := by
  obtain ⟨hl1, hl2, hfwd, hbwd⟩ := h
  have hjj : jj < p.1.length := by
    by_contra hc
    rw [List.getElem?_eq_none (by omega)] at hoa
    exact absurd hoa (by simp)
  have hii : ii < p.2.length := by
    by_contra hc
    rw [List.getElem?_eq_none (by omega)] at hna
    exact absurd hna (by simp)
  refine ⟨by simpa using hl1, by simpa using hl2, ?_, ?_⟩
  · intro i j hij
    replace hij : (p.2.set ii (some jj))[i]? = some (some j) := hij
    by_cases hi : i = ii
    · subst hi
      rw [List.getElem?_set_self hii] at hij
      have hj : j = jj := by
        have h1 : (some jj : Entry) = some j := by injection hij
        injection h1 with h2
        omega
      subst hj
      constructor
      · show (p.1.set j (some i))[j]? = _
        rw [List.getElem?_set_self hjj]
      · exact heq
    · rw [List.getElem?_set_ne (fun hh => hi hh.symm)] at hij
      obtain ⟨hba, hbe⟩ := hfwd i j hij
      by_cases hj : j = jj
      · subst hj
        rw [hoa] at hba
        have h1 : (none : Entry) = some i := by injection hba
        exact absurd h1 (by simp)
      · constructor
        · show (p.1.set jj (some ii))[j]? = _
          rw [List.getElem?_set_ne (fun hh => hj hh.symm)]
          exact hba
        · exact hbe
  · intro j i hji
    replace hji : (p.1.set jj (some ii))[j]? = some (some i) := hji
    by_cases hj : j = jj
    · subst hj
      rw [List.getElem?_set_self hjj] at hji
      have hi : i = ii := by
        have h1 : (some ii : Entry) = some i := by injection hji
        injection h1 with h2
        omega
      subst hi
      show (p.2.set i (some j))[i]? = _
      rw [List.getElem?_set_self hii]
    · rw [List.getElem?_set_ne (fun hh => hj hh.symm)] at hji
      have hba := hbwd j i hji
      by_cases hi : i = ii
      · subst hi
        rw [hna] at hba
        have h1 : (none : Entry) = some j := by injection hba
        exact absurd h1 (by simp)
      · show (p.2.set ii (some jj))[i]? = _
        rw [List.getElem?_set_ne (fun hh => hi hh.symm)]
        exact hba

theorem pass4Step_Inv (old new : List T) (p : Arrays) (i : ℕ) (h : Inv old new p) :
    Inv old new (pass4Step old new p i) := by
  unfold pass4Step
  split
  · rename_i j hj
    split
    · rename_i hlt
      split
      · rename_i hna hoa
        split
        · rename_i a b hae hbe
          split
          · rename_i hab
            subst hab
            exact Inv_extend old new p h (i + 1) (j + 1) hoa hna (by rw [hbe, hae])
          · exact h
        · exact h
      · exact h
    · exact h
  · exact h

theorem pass5Step_Inv (old new : List T) (p : Arrays) (i : ℕ) (h : Inv old new p) :
    Inv old new (pass5Step old new p i) := by
  unfold pass5Step
  split
  · rename_i j hj
    split
    · rename_i hlt
      split
      · rename_i hna hoa
        split
        · rename_i a b hae hbe
          split
          · rename_i hab
            subst hab
            exact Inv_extend old new p h (i - 1) (j - 1) hoa hna (by rw [hbe, hae])
          · exact h
        · exact h
      · exact h
    · exact h
  · exact h

theorem Inv_pass4 (old new : List T) (p : Arrays) (h : Inv old new p) :
    Inv old new (pass4 old new p) := by
  unfold pass4
  by_cases he : p.2.isEmpty
  · rw [if_pos he]; exact h
  · rw [if_neg he]
    exact foldl_keep (Inv old new) (pass4Step old new) _ p h
      (fun t a _ ht => pass4Step_Inv old new t a ht)

theorem Inv_pass5 (old new : List T) (p : Arrays) (h : Inv old new p) :
    Inv old new (pass5 old new p) :=
  foldl_keep (Inv old new) (pass5Step old new) _ p h
    (fun t a _ ht => pass5Step_Inv old new t a ht)

theorem Inv_state4 (old new : List T) : Inv old new (state4 old new) :=
  Inv_pass4 old new (state3 old new) (Inv_state3 old new)

theorem Inv_state5 (old new : List T) : Inv old new (state5 old new) :=
  Inv_pass5 old new (state4 old new) (Inv_state4 old new)

/-!
Lemmas about the two loops of pass 6.
-/

theorem updOf_cases (old new : List T) (j i : ℕ) :
    updOf old new j i = [] ∨ updOf old new j i = [Patch.Update i] := by
  unfold updOf
  cases old[j]? with
  | none => exact Or.inl rfl
  | some a =>
    cases new[i]? with
    | none => exact Or.inl rfl
    | some b =>
      by_cases hab : a = b
      · refine Or.inl ?_
        show (if a = b then [] else [Patch.Update i]) = []
        rw [if_pos hab]
      · refine Or.inr ?_
        show (if a = b then [] else [Patch.Update i]) = [Patch.Update i]
        rw [if_neg hab]

theorem updOf_eq_nil (old new : List T) (j i : ℕ) (h : old[j]? = new[i]?) :
    updOf old new j i = [] := by
  unfold updOf
  rw [h]
  cases new[i]? with
  | none => rfl
  | some b =>
    show (if b = b then [] else [Patch.Update i]) = []
    rw [if_pos rfl]

theorem mem_updOf (old new : List T) (j i : ℕ) (q : Patch) (h : q ∈ updOf old new j i) :
    q = Patch.Update i := by
  rcases updOf_cases old new j i with he | he
  · rw [he] at h
    exact absurd h (List.not_mem_nil q)
  · rw [he] at h
    simpa using h

theorem movOf_cases (offs : List ℕ) (j offset i : ℕ) :
    movOf offs j offset i = [] ∨ movOf offs j offset i = [Patch.Move j i] := by
  unfold movOf
  split
  · exact Or.inl rfl
  · exact Or.inr rfl

theorem mem_movOf (offs : List ℕ) (j offset i : ℕ) (q : Patch)
    (h : q ∈ movOf offs j offset i) : q = Patch.Move j i := by
  unfold movOf at h
  split at h
  · exact absurd h (List.not_mem_nil q)
  · simpa using h

theorem move_mem_movOf_iff (offs : List ℕ) (j offset i : ℕ) :
    Patch.Move j i ∈ movOf offs j offset i ↔ j + offset - offs.getD j 0 ≠ i := by
  unfold movOf
  split
  · rename_i hcond
    constructor
    · intro h
      exact absurd h (List.not_mem_nil _)
    · intro h
      exact absurd hcond h
  · rename_i hcond
    constructor
    · intro _
      exact hcond
    · intro _
      exact List.mem_singleton.mpr rfl

theorem mem_append3 {q : Patch} {l1 l2 l3 : List Patch} :
    q ∈ l1 ++ l2 ++ l3 ↔ q ∈ l1 ∨ q ∈ l2 ∨ q ∈ l3 := by
  simp [List.mem_append, or_assoc]

theorem pass6FstAux_offs_len : ∀ (oa : List Entry) (i off : ℕ),
    (pass6FstAux i off oa).1.length = oa.length := by
  intro oa
  induction oa with
  | nil => intro i off; rfl
  | cons e xs ih =>
    intro i off
    cases e with
    | none => simpa [pass6FstAux] using ih (i + 1) (off + 1)
    | some v => simpa [pass6FstAux] using ih (i + 1) off

theorem pass6FstAux_offs_get : ∀ (oa : List Entry) (i off k : ℕ), k < oa.length →
    (pass6FstAux i off oa).1[k]? = some (off + (oa.take k).count (none : Entry)) := by
  intro oa
  induction oa with
  | nil => intro i off k hk; simp at hk
  | cons e xs ih =>
    intro i off k hk
    cases k with
    | zero =>
      cases e with
      | none => simp [pass6FstAux]
      | some v => simp [pass6FstAux]
    | succ k =>
      cases e with
      | none =>
        have h1 := ih (i + 1) (off + 1) k (by simpa using hk)
        have h2 : (pass6FstAux i off (none :: xs)).1[k + 1]? =
            (pass6FstAux (i + 1) (off + 1) xs).1[k]? := by
          simp [pass6FstAux]
        rw [h2, h1]
        have h3 : ((none :: xs).take (k + 1)).count (none : Entry) =
            (xs.take k).count (none : Entry) + 1 := by
          rw [List.take_succ_cons, List.count_cons]
          simp
        rw [h3]
        congr 1
        omega
      | some v =>
        have h1 := ih (i + 1) off k (by simpa using hk)
        have h2 : (pass6FstAux i off (some v :: xs)).1[k + 1]? =
            (pass6FstAux (i + 1) off xs).1[k]? := by
          simp [pass6FstAux]
        rw [h2, h1]
        have h3 : ((some v :: xs).take (k + 1)).count (none : Entry) =
            (xs.take k).count (none : Entry) := by
          rw [List.take_succ_cons, List.count_cons]
          simp
        rw [h3]

theorem pass6FstAux_delShape : ∀ (oa : List Entry) (i off : ℕ),
    DelShape i (pass6FstAux i off oa).2 := by
  intro oa
  induction oa with
  | nil => intro i off; exact DelShape.nil i
  | cons e xs ih =>
    intro i off
    cases e with
    | none =>
      have h2 : (pass6FstAux i off (none :: xs)).2 =
          Patch.Delete i :: (pass6FstAux (i + 1) (off + 1) xs).2 := by simp [pass6FstAux]
      rw [h2]
      exact DelShape.del i _ (ih (i + 1) (off + 1))
    | some v =>
      have h2 : (pass6FstAux i off (some v :: xs)).2 = (pass6FstAux (i + 1) off xs).2 := by
        simp [pass6FstAux]
      rw [h2]
      exact DelShape.skip i _ (ih (i + 1) off)

theorem delShape_all_delete : ∀ (i : ℕ) (ps : List Patch), DelShape i ps →
    ∀ q ∈ ps, ∃ k, q = Patch.Delete k := by
  intro i ps h
  induction h with
  | nil => intro q hq; exact absurd hq (List.not_mem_nil q)
  | skip i ps _ ih => exact ih
  | del i ps _ ih =>
    intro q hq
    rcases List.mem_cons.mp hq with h1 | h1
    · exact ⟨i, h1⟩
    · exact ih q h1

theorem pass6SndAux_cShape (old new : List T) (offs : List ℕ) :
    ∀ (na : List Entry) (i off : ℕ), CShape i (pass6SndAux old new offs i off na) := by
  intro na
  induction na with
  | nil => intro i off; exact CShape.nil i
  | cons e xs ih =>
    intro i off
    cases e with
    | none => exact CShape.create i _ (ih (i + 1) (off + 1))
    | some j =>
      refine CShape.matched i _ (updOf old new j i) (movOf offs j off i)
        (updOf_cases old new j i) ?_ (ih (i + 1) off)
      rcases movOf_cases offs j off i with h | h
      · exact Or.inl h
      · exact Or.inr ⟨j, h⟩

theorem cShape_no_delete : ∀ (i : ℕ) (ps : List Patch), CShape i ps →
    ∀ k, Patch.Delete k ∉ ps := by
  intro i ps h
  induction h with
  | nil => intro k hk; exact absurd hk (List.not_mem_nil _)
  | create i ps _ ih =>
    intro k hk
    rcases List.mem_cons.mp hk with h1 | h1
    · exact absurd h1 (by simp)
    · exact ih k h1
  | matched i ps u m hu hm _ ih =>
    intro k hk
    rcases mem_append3.mp hk with h1 | h1 | h1
    · rcases hu with he | he
      · rw [he] at h1
        exact absurd h1 (List.not_mem_nil _)
      · rw [he] at h1
        have := List.mem_singleton.mp h1
        exact absurd this (by simp)
    · rcases hm with he | ⟨j, he⟩
      · rw [he] at h1
        exact absurd h1 (List.not_mem_nil _)
      · rw [he] at h1
        have := List.mem_singleton.mp h1
        exact absurd this (by simp)
    · exact ih k h1

theorem pass6SndAux_move_ge (old new : List T) (offs : List ℕ) :
    ∀ (na : List Entry) (i0 off j i : ℕ),
      Patch.Move j i ∈ pass6SndAux old new offs i0 off na → i0 ≤ i := by
  intro na
  induction na with
  | nil => intro i0 off j i h; exact absurd h (List.not_mem_nil _)
  | cons e xs ih =>
    intro i0 off j i h
    cases e with
    | none =>
      rcases List.mem_cons.mp h with h1 | h1
      · exact absurd h1 (by simp)
      · have := ih (i0 + 1) (off + 1) j i h1
        omega
    | some j' =>
      rcases mem_append3.mp h with h1 | h1 | h1
      · exact absurd (mem_updOf old new j' i0 _ h1) (by simp)
      · have h3 := mem_movOf offs j' off i0 _ h1
        injection h3 with hj1 hi1
        omega
      · have := ih (i0 + 1) off j i h1
        omega

theorem pass6SndAux_move_iff (old new : List T) (offs : List ℕ) :
    ∀ (na : List Entry) (i0 off k j : ℕ), na[k]? = some (some j) →
      (Patch.Move j (i0 + k) ∈ pass6SndAux old new offs i0 off na ↔
        j + (off + (na.take k).count (none : Entry)) - offs.getD j 0 ≠ i0 + k) := by
  intro na
  induction na with
  | nil => intro i0 off k j h; simp at h
  | cons e xs ih =>
    intro i0 off k j h
    cases k with
    | zero =>
      have he : e = some j := by simpa using h
      subst he
      simp only [List.take_zero, List.count_nil, Nat.add_zero]
      constructor
      · intro hmem
        rcases mem_append3.mp hmem with h1 | h1 | h1
        · exact absurd (mem_updOf old new j i0 _ h1) (by simp)
        · exact (move_mem_movOf_iff offs j off i0).mp h1
        · have := pass6SndAux_move_ge old new offs xs (i0 + 1) off j i0 h1
          omega
      · intro hcond
        exact mem_append3.mpr (Or.inr (Or.inl ((move_mem_movOf_iff offs j off i0).mpr hcond)))
    | succ k =>
      have hx : xs[k]? = some (some j) := by simpa using h
      cases e with
      | none =>
        have hcnt : ((none :: xs).take (k + 1)).count (none : Entry) =
            (xs.take k).count (none : Entry) + 1 := by
          rw [List.take_succ_cons, List.count_cons]
          simp
        have hidx : i0 + (k + 1) = (i0 + 1) + k := by omega
        have hoff : off + ((xs.take k).count (none : Entry) + 1) =
            (off + 1) + (xs.take k).count (none : Entry) := by omega
        rw [hcnt, hidx, hoff]
        show Patch.Move j ((i0 + 1) + k) ∈
            Patch.Create i0 :: pass6SndAux old new offs (i0 + 1) (off + 1) xs ↔ _
        rw [List.mem_cons]
        constructor
        · intro hmem
          rcases hmem with h1 | h1
          · exact absurd h1 (by simp)
          · exact (ih (i0 + 1) (off + 1) k j hx).mp h1
        · intro hcond
          exact Or.inr ((ih (i0 + 1) (off + 1) k j hx).mpr hcond)
      | some j' =>
        have hcnt : ((some j' :: xs).take (k + 1)).count (none : Entry) =
            (xs.take k).count (none : Entry) := by
          rw [List.take_succ_cons, List.count_cons]
          simp
        have hidx : i0 + (k + 1) = (i0 + 1) + k := by omega
        rw [hcnt, hidx]
        show Patch.Move j ((i0 + 1) + k) ∈
            updOf old new j' i0 ++ movOf offs j' off i0 ++
              pass6SndAux old new offs (i0 + 1) off xs ↔ _
        constructor
        · intro hmem
          rcases mem_append3.mp hmem with h1 | h1 | h1
          · exact absurd (mem_updOf old new j' i0 _ h1) (by simp)
          · have h3 := mem_movOf offs j' off i0 _ h1
            injection h3 with hj1 hi1
            omega
          · exact (ih (i0 + 1) off k j hx).mp h1
        · intro hcond
          exact mem_append3.mpr (Or.inr (Or.inr ((ih (i0 + 1) off k j hx).mpr hcond)))

theorem pass6SndAux_no_update (old new : List T) (offs : List ℕ) :
    ∀ (na : List Entry) (i0 off : ℕ),
      (∀ k j : ℕ, na[k]? = some (some j) → old[j]? = new[i0 + k]?) →
      ∀ i, Patch.Update i ∉ pass6SndAux old new offs i0 off na := by
  intro na
  induction na with
  | nil => intro i0 off _ i h; exact absurd h (List.not_mem_nil _)
  | cons e xs ih =>
    intro i0 off hcond i h
    have htail : ∀ k j : ℕ, xs[k]? = some (some j) → old[j]? = new[(i0 + 1) + k]? := by
      intro k j hk
      have h1 := hcond (k + 1) j (by simpa using hk)
      have hidx : i0 + (k + 1) = (i0 + 1) + k := by omega
      rw [hidx] at h1
      exact h1
    cases e with
    | none =>
      rcases List.mem_cons.mp h with h1 | h1
      · exact absurd h1 (by simp)
      · exact ih (i0 + 1) (off + 1) htail i h1
    | some j' =>
      have he : old[j']? = new[i0]? := by
        have h1 := hcond 0 j' (by simp)
        rw [Nat.add_zero] at h1
        exact h1
      rcases mem_append3.mp h with h1 | h1 | h1
      · rw [updOf_eq_nil old new j' i0 he] at h1
        exact absurd h1 (List.not_mem_nil _)
      · exact absurd (mem_movOf offs j' off i0 _ h1) (by simp)
      · exact ih (i0 + 1) off htail i h1

/-!
The checked pipeline never fails and agrees with the total embedding.
-/

theorem pass3Step_dims (new : List T) (t : Table T) (p : Arrays) (i : ℕ) :
    (pass3Step new t p i).1.length = p.1.length ∧
      (pass3Step new t p i).2.length = p.2.length := by
  unfold pass3Step
  split
  · split
    · split
      · exact ⟨by simp, by simp⟩
      · exact ⟨rfl, rfl⟩
    · exact ⟨rfl, rfl⟩
  · exact ⟨rfl, rfl⟩

theorem pass3C_eq (old new : List T) (p : Arrays)
    (hp1 : p.1.length = old.length) (hp2 : p.2.length = new.length) :
    pass3C new (tableOf old new) p = some (pass3 new (tableOf old new) p) := by
  unfold pass3C pass3
  refine foldl_option_eq (fun s => s.1.length = old.length ∧ s.2.length = new.length)
    (pass3Step new (tableOf old new)) (pass3CStep new (tableOf old new))
    (List.range p.2.length) p ⟨hp1, hp2⟩ ?_ ?_
  · intro s i hi hs
    obtain ⟨hs1, hs2⟩ := hs
    have hi2 : i < new.length := by
      rw [List.mem_range] at hi
      omega
    have hx : new[i]? = some (new[i]) := List.getElem?_eq_getElem hi2
    have hmemnew : new[i] ∈ new := List.getElem_mem hi2
    obtain ⟨e, he, henc, heoc⟩ := tableOf_mem old new (new[i]) (Or.inl hmemnew)
    by_cases hcond : e.nc = 1 ∧ e.nc = e.oc
    · have hum : uMatch (tableOf old new) (new[i]) = some e.olno := by
        unfold uMatch
        rw [he]
        show (if e.nc = 1 ∧ e.nc = e.oc then some e.olno else none) = some e.olno
        rw [if_pos hcond]
      obtain ⟨_, _, hb, _, _⟩ := uMatch_spec old new (new[i]) e.olno hum
      have hb1 : e.olno < s.1.length := by omega
      have hb2 : i < s.2.length := by omega
      simp [pass3CStep, pass3Step, hx, he, hcond, hb1, hb2]
      split <;> rfl
    · simp [pass3CStep, pass3Step, hx, he, hcond]
  · intro s i _ hs
    obtain ⟨hs1, hs2⟩ := hs
    obtain ⟨hd1, hd2⟩ := pass3Step_dims new (tableOf old new) s i
    exact ⟨by rw [hd1]; exact hs1, by rw [hd2]; exact hs2⟩

theorem pass4C_eq (old new : List T) (p : Arrays) (h : Inv old new p) :
    pass4C old new p = some (pass4 old new p) := by
  unfold pass4C pass4
  by_cases hemp : p.2.isEmpty
  · rw [if_pos hemp]
    have h0 : p.2.length = 0 := List.isEmpty_iff_length_eq_zero.mp hemp
    rw [h0]
    rfl
  · rw [if_neg hemp]
    have hne : p.2.length ≠ 0 := fun h0 => hemp (List.isEmpty_iff_length_eq_zero.mpr h0)
    refine foldl_option_eq (Inv old new) (pass4Step old new) (pass4CStep old new)
      (List.range (p.2.length - 1)) p h ?_ ?_
    · intro s i hi hs
      obtain ⟨hs1, hs2, hfwd, hbwd⟩ := hs
      rw [List.mem_range] at hi
      have hp2 : p.2.length = new.length := h.2.1
      have hi1 : i + 1 < s.2.length := by rw [hs2, ← hp2]; omega
      have hiv : i < s.2.length := by omega
      have hei : s.2[i]? = some (s.2[i]) := List.getElem?_eq_getElem hiv
      cases hval : s.2[i] with
      | none => simp [pass4CStep, pass4Step, hei, hval]
      | some j =>
        by_cases hjlt : j + 1 < s.1.length
        · have hv : s.2[i + 1]? = some (s.2[i + 1]) := List.getElem?_eq_getElem hi1
          cases hv1 : s.2[i + 1] with
          | some w => simp [pass4CStep, pass4Step, hei, hval, hjlt, hv, hv1]
          | none =>
            have hw : s.1[j + 1]? = some (s.1[j + 1]) := List.getElem?_eq_getElem hjlt
            cases hw1 : s.1[j + 1] with
            | some w => simp [pass4CStep, pass4Step, hei, hval, hjlt, hv, hv1, hw, hw1]
            | none =>
              have hia : i + 1 < new.length := by rw [← hs2]; omega
              have hjb : j + 1 < old.length := by rw [← hs1]; omega
              have ha : new[i + 1]? = some (new[i + 1]) := List.getElem?_eq_getElem hia
              have hb : old[j + 1]? = some (old[j + 1]) := List.getElem?_eq_getElem hjb
              by_cases hab : new[i + 1] = old[j + 1]
              · simp [pass4CStep, pass4Step, hei, hval, hjlt, hv, hv1, hw, hw1, ha, hb, hab]
              · simp [pass4CStep, pass4Step, hei, hval, hjlt, hv, hv1, hw, hw1, ha, hb, hab]
        · simp [pass4CStep, pass4Step, hei, hval, hjlt]
    · intro s i _ hs
      exact pass4Step_Inv old new s i hs

theorem pass5C_eq (old new : List T) (p : Arrays) (h : Inv old new p) :
    pass5C old new p = some (pass5 old new p) := by
  unfold pass5C pass5
  refine foldl_option_eq (Inv old new) (pass5Step old new) (pass5CStep old new)
    ((List.range' 1 (p.2.length - 1)).reverse) p h ?_ ?_
  · intro s i hi hs
    obtain ⟨hs1, hs2, hfwd, hbwd⟩ := hs
    rw [List.mem_reverse] at hi
    obtain ⟨k, hk, hik⟩ := List.mem_range'.mp hi
    have hp2 : p.2.length = new.length := h.2.1
    have hige : 1 ≤ i := by omega
    have hilt : i < s.2.length := by rw [hs2, ← hp2]; omega
    have hei : s.2[i]? = some (s.2[i]) := List.getElem?_eq_getElem hilt
    cases hval : s.2[i] with
    | none => simp [pass5CStep, pass5Step, hei, hval]
    | some j =>
      rw [hval] at hei
      by_cases hj0 : 0 < j
      · have him : i - 1 < s.2.length := by omega
        have hv : s.2[i - 1]? = some (s.2[i - 1]) := List.getElem?_eq_getElem him
        cases hv1 : s.2[i - 1] with
        | some w => simp [pass5CStep, pass5Step, hei, hval, hj0, hv, hv1]
        | none =>
          have hjlt : j < s.1.length := by
            have h1 := (hfwd i j hei).1
            by_contra hc
            rw [List.getElem?_eq_none (by omega)] at h1
            exact absurd h1 (by simp)
          have hjm : j - 1 < s.1.length := by omega
          have hw : s.1[j - 1]? = some (s.1[j - 1]) := List.getElem?_eq_getElem hjm
          cases hw1 : s.1[j - 1] with
          | some w => simp [pass5CStep, pass5Step, hei, hval, hj0, hv, hv1, hw, hw1]
          | none =>
            have hia : i - 1 < new.length := by rw [← hs2]; omega
            have hjb : j - 1 < old.length := by rw [← hs1]; omega
            have ha : new[i - 1]? = some (new[i - 1]) := List.getElem?_eq_getElem hia
            have hb : old[j - 1]? = some (old[j - 1]) := List.getElem?_eq_getElem hjb
            by_cases hab : new[i - 1] = old[j - 1]
            · simp [pass5CStep, pass5Step, hei, hval, hj0, hv, hv1, hw, hw1, ha, hb, hab]
            · simp [pass5CStep, pass5Step, hei, hval, hj0, hv, hv1, hw, hw1, ha, hb, hab]
      · simp [pass5CStep, pass5Step, hei, hval, hj0]
  · intro s i _ hs
    exact pass5Step_Inv old new s i hs

theorem pass6SndC_eq (old new : List T) (offs : List ℕ) :
    ∀ (na : List Entry) (i0 off : ℕ),
      i0 + na.length ≤ new.length →
      (∀ k j : ℕ, na[k]? = some (some j) →
        j < old.length ∧ j < offs.length ∧ offs.getD j 0 ≤ j) →
      pass6SndC old new offs i0 off na = some (pass6SndAux old new offs i0 off na) := by
  intro na
  induction na with
  | nil => intro i0 off _ _; rfl
  | cons e xs ih =>
    intro i0 off hlen hok
    have htail : ∀ k j : ℕ, xs[k]? = some (some j) →
        j < old.length ∧ j < offs.length ∧ offs.getD j 0 ≤ j := by
      intro k j hk
      exact hok (k + 1) j (by simpa using hk)
    have hlen2 : (i0 + 1) + xs.length ≤ new.length := by
      simp at hlen
      omega
    cases e with
    | none =>
      have hr := ih (i0 + 1) (off + 1) hlen2 htail
      show (pass6SndC old new offs (i0 + 1) (off + 1) xs).bind
          (fun rest => some (Patch.Create i0 :: rest)) = _
      rw [hr]
      rfl
    | some j =>
      obtain ⟨hjo, hjf, hjd⟩ := hok 0 j (by simp)
      have hio : i0 < new.length := by
        simp at hlen
        omega
      have ha : old[j]? = some (old[j]) := List.getElem?_eq_getElem hjo
      have hb : new[i0]? = some (new[i0]) := List.getElem?_eq_getElem hio
      have hd : offs[j]? = some (offs.getD j 0) := by
        have h1 : offs[j]? = some (offs[j]) := List.getElem?_eq_getElem hjf
        rw [h1, List.getD_eq_getElem?_getD, h1]
        rfl
      have hr := ih (i0 + 1) off hlen2 htail
      have hcnd : offs.getD j 0 ≤ j + off := by omega
      have hupd : updOf old new j i0 =
          (if old[j] = new[i0] then [] else [Patch.Update i0]) := by
        unfold updOf
        rw [ha, hb]
      have hmov : movOf offs j off i0 =
          (if j + off - offs.getD j 0 = i0 then [] else [Patch.Move j i0]) := rfl
      have hred : pass6SndC old new offs i0 off (some j :: xs) =
          (old[j]?.bind fun a => new[i0]?.bind fun b => offs[j]?.bind fun dj =>
            if dj ≤ j + off then
              (pass6SndC old new offs (i0 + 1) off xs).bind fun rest =>
                some ((if a = b then [] else [Patch.Update i0]) ++
                  (if j + off - dj = i0 then [] else [Patch.Move j i0]) ++ rest)
            else none) := rfl
      rw [hred, ha, hb, hd]
      show (if offs.getD j 0 ≤ j + off then
          (pass6SndC old new offs (i0 + 1) off xs).bind fun rest =>
            some ((if old[j] = new[i0] then [] else [Patch.Update i0]) ++
              (if j + off - offs.getD j 0 = i0 then [] else [Patch.Move j i0]) ++ rest)
        else none) = _
      rw [if_pos hcnd, hr]
      show some ((if old[j] = new[i0] then [] else [Patch.Update i0]) ++
          (if j + off - offs.getD j 0 = i0 then [] else [Patch.Move j i0]) ++
          pass6SndAux old new offs (i0 + 1) off xs) = _
      rw [← hupd, ← hmov]
      rfl

theorem pass6C_eq (old new : List T) (oa na : List Entry)
    (hoalen : oa.length = old.length) (hnalen : na.length = new.length)
    (hmatch : ∀ k j : ℕ, na[k]? = some (some j) → j < old.length) :
    pass6C old new oa na = some (pass6 old new oa na) := by
  have hofflen : (pass6FstAux 0 0 oa).1.length = oa.length := pass6FstAux_offs_len oa 0 0
  have hok : ∀ k j : ℕ, na[k]? = some (some j) →
      j < old.length ∧ j < (pass6FstAux 0 0 oa).1.length ∧
        (pass6FstAux 0 0 oa).1.getD j 0 ≤ j := by
    intro k j hk
    have hjo := hmatch k j hk
    refine ⟨hjo, by omega, ?_⟩
    rw [List.getD_eq_getElem?_getD, pass6FstAux_offs_get oa 0 0 j (by omega)]
    have h1 : (oa.take j).count (none : Entry) ≤ (oa.take j).length :=
      List.count_le_length _ _
    have h2 : (oa.take j).length ≤ j := by
      rw [List.length_take]
      omega
    simpa using by omega
  have hsnd := pass6SndC_eq old new (pass6FstAux 0 0 oa).1 na 0 0 (by omega) hok
  have hstep : pass6C old new oa na =
      (pass6SndC old new (pass6FstAux 0 0 oa).1 0 0 na).bind
        (fun snd => some ((pass6FstAux 0 0 oa).2 ++ snd)) := rfl
  rw [hstep, hsnd]
  rfl

theorem diffC_eq_diff_core (old new : List T) : diffC old new = some (diff old new) := by
  have h3 := pass3C_eq old new (initArrays old new) (by simp [initArrays]) (by simp [initArrays])
  have hInv3 := Inv_state3 old new
  have h4 := pass4C_eq old new (state3 old new) hInv3
  have h5 := pass5C_eq old new (state4 old new) (Inv_state4 old new)
  obtain ⟨hl1, hl2, hfwd, hbwd⟩ := Inv_state5 old new
  have hmatch : ∀ k j : ℕ, (state5 old new).2[k]? = some (some j) → j < old.length := by
    intro k j hk
    have h1 := (hfwd k j hk).1
    by_contra hc
    rw [List.getElem?_eq_none (by omega)] at h1
    exact absurd h1 (by simp)
  have h6 := pass6C_eq old new (state5 old new).1 (state5 old new).2 hl1 hl2 hmatch
  have hstep : diffC old new =
      (pass3C new (tableOf old new) (initArrays old new)).bind (fun p3 =>
        (pass4C old new p3).bind (fun p4 =>
          (pass5C old new p4).bind (fun p5 =>
            pass6C old new p5.1 p5.2))) := rfl
  have h3s : pass3C new (tableOf old new) (initArrays old new) = some (state3 old new) := h3
  have h4s : pass4C old new (state3 old new) = some (state4 old new) := h4
  have h5s : pass5C old new (state4 old new) = some (state5 old new) := h5
  rw [hstep, h3s]
  simp only [Option.some_bind]
  rw [h4s]
  simp only [Option.some_bind]
  rw [h5s]
  simp only [Option.some_bind]
  rw [h6]
  rfl

/-!
Degenerate inputs: an empty `old` or an empty `new` sequence.
-/

theorem state3_nil_old (new : List T) : state3 [] new = initArrays [] new := by
  unfold state3 pass3
  apply foldl_fixed
  intro i _
  cases hx : new[i]? with
  | none =>
    unfold pass3Step
    rw [hx]
  | some x =>
    have hmem : x ∈ new := List.getElem?_mem hx
    have hcnt : new.count x ≠ 0 := by
      have := List.count_pos_iff.mpr hmem
      omega
    have ht : tableOf [] new x = some ⟨new.count x, 0, 0⟩ := by
      rw [tableOf_eq]
      rw [if_neg (fun hc => hcnt hc.1)]
      rfl
    have hred : pass3Step new (tableOf [] new) (initArrays [] new) i =
        (match tableOf [] new x with
         | some tx =>
           if tx.nc = 1 ∧ tx.nc = tx.oc then
             ((initArrays [] new).1.set tx.olno (some i),
              (initArrays [] new).2.set i (some tx.olno))
           else initArrays [] new
         | none => initArrays [] new) := by
      unfold pass3Step
      rw [hx]
    rw [hred, ht]
    show (if new.count x = 1 ∧ new.count x = 0 then
        ((initArrays [] new).1.set 0 (some i), (initArrays [] new).2.set i (some 0))
      else initArrays [] new) = initArrays [] new
    rw [if_neg (by omega)]

theorem pass4_noop_unset (old new : List T) (p : Arrays)
    (h : ∀ i : ℕ, i < p.2.length → p.2[i]? = some none) :
    pass4 old new p = p := by
  unfold pass4
  by_cases hemp : p.2.isEmpty
  · rw [if_pos hemp]
  · rw [if_neg hemp]
    apply foldl_fixed
    intro i hi
    rw [List.mem_range] at hi
    unfold pass4Step
    rw [h i (by omega)]

theorem pass5_noop_unset (old new : List T) (p : Arrays)
    (h : ∀ i : ℕ, i < p.2.length → p.2[i]? = some none) :
    pass5 old new p = p := by
  unfold pass5
  apply foldl_fixed
  intro i hi
  rw [List.mem_reverse] at hi
  obtain ⟨k, hk, hik⟩ := List.mem_range'.mp hi
  unfold pass5Step
  rw [h i (by omega)]

theorem pass6FstAux_replicate_none : ∀ (k i off : ℕ),
    pass6FstAux i off (List.replicate k (none : Entry)) =
      (List.range' off k, (List.range' i k).map Patch.Delete) := by
  intro k
  induction k with
  | zero => intro i off; rfl
  | succ k ih =>
    intro i off
    have hred : pass6FstAux i off (List.replicate (k + 1) (none : Entry)) =
        (off :: (pass6FstAux (i + 1) (off + 1) (List.replicate k none)).1,
         Patch.Delete i :: (pass6FstAux (i + 1) (off + 1) (List.replicate k none)).2) := by
      rw [List.replicate_succ]
      rfl
    rw [hred, ih]
    rw [List.range'_succ, List.range'_succ]
    simp

theorem pass6SndAux_replicate_none (old new : List T) (offs : List ℕ) :
    ∀ (k i off : ℕ),
      pass6SndAux old new offs i off (List.replicate k (none : Entry)) =
        (List.range' i k).map Patch.Create := by
  intro k
  induction k with
  | zero => intro i off; rfl
  | succ k ih =>
    intro i off
    have hred : pass6SndAux old new offs i off (List.replicate (k + 1) (none : Entry)) =
        Patch.Create i :: pass6SndAux old new offs (i + 1) (off + 1) (List.replicate k none) := by
      rw [List.replicate_succ]
      rfl
    rw [hred, ih]
    rw [List.range'_succ]
    simp

theorem diff_nil_old (new : List T) : diff [] new = (List.range new.length).map Patch.Create := by
  have h3 := state3_nil_old new
  have hun : ∀ i : ℕ, i < (initArrays ([] : List T) new).2.length →
      (initArrays ([] : List T) new).2[i]? = some none := by
    intro i hi
    show (List.replicate new.length (none : Entry))[i]? = some none
    simp [initArrays] at hi
    rw [List.getElem?_replicate, if_pos hi]
  have h4 : state4 [] new = initArrays [] new := by
    unfold state4
    rw [h3]
    exact pass4_noop_unset [] new _ hun
  have h5 : state5 [] new = initArrays [] new := by
    unfold state5
    rw [h4]
    exact pass5_noop_unset [] new _ hun
  unfold diff
  rw [h5]
  show pass6 [] new [] (List.replicate new.length none) = _
  unfold pass6
  show ((pass6FstAux 0 0 []).2 : List Patch) ++
      pass6SndAux [] new (pass6FstAux 0 0 []).1 0 0 (List.replicate new.length none) = _
  rw [pass6SndAux_replicate_none]
  rw [List.range_eq_range']
  rfl

theorem diff_nil_new (old : List T) : diff old [] = (List.range old.length).map Patch.Delete := by
  have h5 : state5 old ([] : List T) = initArrays old [] := rfl
  unfold diff
  rw [h5]
  show pass6 old [] (List.replicate old.length none) [] = _
  unfold pass6
  rw [pass6FstAux_replicate_none]
  show (List.range' 0 old.length).map Patch.Delete ++ [] = _
  rw [List.append_nil, List.range_eq_range']

/-!
Identity on duplicate-free sequences.
-/

theorem uMatch_self_nodup (S : List T) (hnd : S.Nodup) (i : ℕ) (x : T)
    (hx : S[i]? = some x) : uMatch (tableOf S S) x = some i := by
  have hmem : x ∈ S := List.getElem?_mem hx
  have hcnt : S.count x = 1 := List.count_eq_one_of_mem hnd hmem
  obtain ⟨e, he, henc, heoc⟩ := tableOf_mem S S x (Or.inl hmem)
  have hcond : e.nc = 1 ∧ e.nc = e.oc := by omega
  have hum : uMatch (tableOf S S) x = some e.olno := by
    unfold uMatch
    rw [he]
    show (if e.nc = 1 ∧ e.nc = e.oc then some e.olno else none) = some e.olno
    rw [if_pos hcond]
  obtain ⟨_, _, hl, hg, _⟩ := uMatch_spec S S x e.olno hum
  have heq : e.olno = i := by
    have hi2 : i < S.length := by
      by_contra hc
      rw [List.getElem?_eq_none (by omega)] at hx
      exact absurd hx (by simp)
    refine List.getElem?_inj hl hnd ?_
    rw [hg, hx]
  rw [hum, heq]

theorem state3_self_nodup (S : List T) (hnd : S.Nodup) (i : ℕ) (hi : i < S.length) :
    (state3 S S).2[i]? = some (some i) := by
  rw [state3_na S S i]
  have hx : S[i]? = some (S[i]) := List.getElem?_eq_getElem hi
  rw [hx]
  simp [uMatch_self_nodup S hnd i (S[i]) hx]

theorem pass4_noop_matched (old new : List T) (p : Arrays)
    (h : ∀ i : ℕ, i < p.2.length → ∃ j, p.2[i]? = some (some j)) :
    pass4 old new p = p := by
  unfold pass4
  by_cases hemp : p.2.isEmpty
  · rw [if_pos hemp]
  · rw [if_neg hemp]
    apply foldl_fixed
    intro i hi
    rw [List.mem_range] at hi
    unfold pass4Step
    cases hei : p.2[i]? with
    | none => rfl
    | some e =>
      cases e with
      | none => rfl
      | some j =>
        obtain ⟨j2, hj2⟩ := h (i + 1) (by omega)
        show (if j + 1 < p.1.length then
            match p.2[i + 1]?, p.1[j + 1]? with
            | some none, some none =>
              match new[i + 1]?, old[j + 1]? with
              | some a, some b =>
                if a = b then (p.1.set (j + 1) (some (i + 1)), p.2.set (i + 1) (some (j + 1)))
                else p
              | _, _ => p
            | _, _ => p
          else p) = p
        rw [hj2]
        by_cases hlt : j + 1 < p.1.length
        · rw [if_pos hlt]
        · rw [if_neg hlt]

theorem pass5_noop_matched (old new : List T) (p : Arrays)
    (h : ∀ i : ℕ, i < p.2.length → ∃ j, p.2[i]? = some (some j)) :
    pass5 old new p = p := by
  unfold pass5
  apply foldl_fixed
  intro i hi
  rw [List.mem_reverse] at hi
  obtain ⟨k, hk, hik⟩ := List.mem_range'.mp hi
  unfold pass5Step
  cases hei : p.2[i]? with
  | none => rfl
  | some e =>
    cases e with
    | none => rfl
    | some j =>
      obtain ⟨j2, hj2⟩ := h (i - 1) (by omega)
      show (if 0 < j then
          match p.2[i - 1]?, p.1[j - 1]? with
          | some none, some none =>
            match new[i - 1]?, old[j - 1]? with
            | some a, some b =>
              if a = b then (p.1.set (j - 1) (some (i - 1)), p.2.set (i - 1) (some (j - 1)))
              else p
            | _, _ => p
          | _, _ => p
        else p) = p
      rw [hj2]
      by_cases hlt : 0 < j
      · rw [if_pos hlt]
      · rw [if_neg hlt]

theorem state5_self_nodup (S : List T) (hnd : S.Nodup) : state5 S S = state3 S S := by
  have hlen : (state3 S S).2.length = S.length := (Inv_state3 S S).2.1
  have hmatched : ∀ i : ℕ, i < (state3 S S).2.length →
      ∃ j, (state3 S S).2[i]? = some (some j) := by
    intro i hi
    exact ⟨i, state3_self_nodup S hnd i (by omega)⟩
  have h4 : state4 S S = state3 S S := pass4_noop_matched S S _ hmatched
  show pass5 S S (state4 S S) = state3 S S
  rw [h4]
  exact pass5_noop_matched S S _ hmatched

theorem pass6FstAux_all_some : ∀ (oa : List Entry) (i off : ℕ),
    (∀ k : ℕ, k < oa.length → ∃ v, oa[k]? = some (some v)) →
    pass6FstAux i off oa = (List.replicate oa.length off, []) := by
  intro oa
  induction oa with
  | nil => intro i off _; rfl
  | cons e xs ih =>
    intro i off h
    obtain ⟨v, hv⟩ := h 0 (by simp)
    have he : e = some v := by simpa using hv
    subst he
    have hred : pass6FstAux i off (some v :: xs) =
        ((off : ℕ) :: (pass6FstAux (i + 1) off xs).1, (pass6FstAux (i + 1) off xs).2) := rfl
    have htail : ∀ k : ℕ, k < xs.length → ∃ w, xs[k]? = some (some w) := by
      intro k hk
      obtain ⟨w, hw⟩ := h (k + 1) (by simpa using hk)
      exact ⟨w, by simpa using hw⟩
    rw [hred, ih (i + 1) off htail]
    simp [List.replicate_succ]

theorem replicate_getD_zero (n j : ℕ) : (List.replicate n (0 : ℕ)).getD j 0 = 0 := by
  rw [List.getD_eq_getElem?_getD, List.getElem?_replicate]
  split <;> rfl

theorem pass6SndAux_id (S : List T) (offs : List ℕ)
    (hoffs : ∀ j : ℕ, offs.getD j 0 = 0) :
    ∀ (na : List Entry) (i0 : ℕ),
      (∀ k : ℕ, k < na.length → na[k]? = some (some (i0 + k))) →
      pass6SndAux S S offs i0 0 na = [] := by
  intro na
  induction na with
  | nil => intro i0 _; rfl
  | cons e xs ih =>
    intro i0 h
    have h0 := h 0 (by simp)
    have he : e = some i0 := by simpa using h0
    subst he
    show updOf S S i0 i0 ++ movOf offs i0 0 i0 ++ pass6SndAux S S offs (i0 + 1) 0 xs = []
    have hu : updOf S S i0 i0 = [] := updOf_eq_nil S S i0 i0 rfl
    have hm : movOf offs i0 0 i0 = [] := by
      unfold movOf
      rw [hoffs i0]
      rw [if_pos (by omega)]
    have hr : pass6SndAux S S offs (i0 + 1) 0 xs = [] := by
      apply ih
      intro k hk
      have h1 := h (k + 1) (by simpa using hk)
      have hidx : i0 + (k + 1) = (i0 + 1) + k := by omega
      rw [hidx] at h1
      simpa using h1
    rw [hu, hm, hr]
    rfl

theorem diff_self_nodup_core (S : List T) (h : S.Nodup) : diff S S = [] := by
  unfold diff
  rw [state5_self_nodup S h]
  obtain ⟨hl1, hl2, hfwd, hbwd⟩ := Inv_state3 S S
  have hoa : ∀ k : ℕ, k < (state3 S S).1.length → ∃ v, (state3 S S).1[k]? = some (some v) := by
    intro k hk
    have hna := state3_self_nodup S h k (by omega)
    exact ⟨k, (hfwd k k hna).1⟩
  have hfst := pass6FstAux_all_some (state3 S S).1 0 0 hoa
  show (pass6FstAux 0 0 (state3 S S).1).2 ++
      pass6SndAux S S (pass6FstAux 0 0 (state3 S S).1).1 0 0 (state3 S S).2 = []
  rw [hfst]
  show ([] : List Patch) ++
      pass6SndAux S S (List.replicate (state3 S S).1.length 0) 0 0 (state3 S S).2 = []
  rw [List.nil_append]
  refine pass6SndAux_id S _ (fun j => replicate_getD_zero _ j) _ 0 ?_
  intro k hk
  have hk2 : k < S.length := by omega
  simpa using state3_self_nodup S h k hk2

theorem Inv_symm (old new : List T) (p : Arrays) (h : Inv old new p) (i j : ℕ) :
    p.2[i]? = some (some j) ↔ p.1[j]? = some (some i) :=
  ⟨fun hh => (h.2.2.1 i j hh).1, fun hh => h.2.2.2 j i hh⟩

/-!
The claims.
-/

/-- C1, counterexample: the claim "diff(S, S) is empty for every S" fails on a
sequence with duplicate elements — no element is unique, so pass 3 matches
nothing and pass 6 reports everything deleted and re-created. -/
theorem diff_self_duplicates_counterexample :
    diff ["a", "a"] ["a", "a"] =
        [Patch.Delete 0, Patch.Delete 1, Patch.Create 0, Patch.Create 1] ∧
      diff ["a", "a"] ["a", "a"] ≠ [] := ⟨by decide, by decide⟩

/-- C1, amended: for every sequence `S` whose elements are pairwise distinct,
`diff S S` is the empty Difference. -/
theorem diff_self_nodup (S : List T) (h : S.Nodup) : diff S S = [] :=
  diff_self_nodup_core S h

/-- C1, witness for the amended claim at a concrete duplicate-free input. -/
theorem diff_self_nodup_witness :
    (["a", "b"] : List String).Nodup ∧ diff ["a", "b"] ["a", "b"] = [] :=
  ⟨by decide, diff_self_nodup ["a", "b"] (by decide)⟩

/-- C2: `diff` is total — the checked pipeline `diffC`, which returns `none`
exactly where the Rust code could panic (a missing occurrence-table key in
pass 3, an out-of-bounds index in passes 3-6, or an underflow of
`j + createOffset - deleteOffsets[j]` in pass 6), always succeeds and returns
the very value of `diff`. -/
theorem diff_total (old new : List T) : diffC old new = some (diff old new) :=
  diffC_eq_diff_core old new

/-- C3: the output of `diff` splits into a deletion section `d` — only
`Delete` patches, old indices strictly increasing — followed by a section `c`
that is, for each new index in increasing order, either a single `Create`, or
an optional `Update` followed by an optional `Move`; in particular `c`
contains no `Delete`, so every `Delete` precedes every other patch. -/
theorem diff_ordered (old new : List T) :
    ∃ d c, diff old new = d ++ c ∧ DelShape 0 d ∧ CShape 0 c ∧
      (∀ q ∈ d, ∃ k, q = Patch.Delete k) ∧ (∀ k : ℕ, Patch.Delete k ∉ c) := by
  refine ⟨(pass6FstAux 0 0 (state5 old new).1).2,
    pass6SndAux old new (pass6FstAux 0 0 (state5 old new).1).1 0 0 (state5 old new).2,
    rfl, pass6FstAux_delShape _ 0 0, pass6SndAux_cShape old new _ _ 0 0, ?_, ?_⟩
  · exact delShape_all_delete 0 _ (pass6FstAux_delShape _ 0 0)
  · exact fun k => cShape_no_delete 0 _ (pass6SndAux_cShape old new _ _ 0 0) k

/-- C4: an empty old sequence yields exactly `[Create 0, ..., Create (len-1)]`,
an empty new sequence yields exactly `[Delete 0, ..., Delete (len-1)]`, and two
empty sequences yield the empty Difference. -/
theorem diff_degenerate (S : List T) :
    diff [] S = (List.range S.length).map Patch.Create ∧
      diff S [] = (List.range S.length).map Patch.Delete ∧
      diff ([] : List T) [] = [] :=
  ⟨diff_nil_old S, diff_nil_new S, by rw [diff_nil_old]; rfl⟩

/-- C5: after each of passes 3, 4 and 5 of the pipeline, the correspondence
arrays are symmetric — `newMatch[i] = Some j` holds exactly when
`oldMatch[j] = Some i`. -/
theorem correspondence_symmetric (old new : List T) :
    (∀ i j : ℕ,
      (state3 old new).2[i]? = some (some j) ↔ (state3 old new).1[j]? = some (some i)) ∧
    (∀ i j : ℕ,
      (state4 old new).2[i]? = some (some j) ↔ (state4 old new).1[j]? = some (some i)) ∧
    (∀ i j : ℕ,
      (state5 old new).2[i]? = some (some j) ↔ (state5 old new).1[j]? = some (some i)) :=
  ⟨Inv_symm old new _ (Inv_state3 old new),
   Inv_symm old new _ (Inv_state4 old new),
   Inv_symm old new _ (Inv_state5 old new)⟩

/-- C6: in pass 6, for a matched new index `i` with `newMatch[i] = Some j`,
`Move(j, i)` is emitted exactly when `j + createOffset - deleteOffsets[j] ≠ i`,
where `createOffset` counts the unmatched new indices strictly before `i`
(the `Create` patches already emitted) and `deleteOffsets[j]` counts the
unmatched old indices strictly before `j` (the `Delete` patches emitted for
old indices `< j`) — the deletion offset is indexed by the old index `j`. -/
theorem pass6_move_condition (old new : List T) (oa na : List Entry) (i j : ℕ)
    (hna : na[i]? = some (some j)) (hj : j < oa.length) :
    (Patch.Move j i ∈ pass6 old new oa na ↔
      j + (na.take i).count (none : Entry) - (oa.take j).count (none : Entry) ≠ i) := by
  have hoffs : (pass6FstAux 0 0 oa).1.getD j 0 = (oa.take j).count (none : Entry) := by
    rw [List.getD_eq_getElem?_getD, pass6FstAux_offs_get oa 0 0 j hj]
    simp
  have hiff := pass6SndAux_move_iff old new (pass6FstAux 0 0 oa).1 na 0 0 i j hna
  simp only [Nat.zero_add] at hiff
  have hsplit : pass6 old new oa na = (pass6FstAux 0 0 oa).2 ++
      pass6SndAux old new (pass6FstAux 0 0 oa).1 0 0 na := rfl
  rw [hsplit, List.mem_append]
  constructor
  · rintro (h1 | h1)
    · obtain ⟨k, hk⟩ := delShape_all_delete 0 _ (pass6FstAux_delShape oa 0 0) _ h1
      exact absurd hk (by simp)
    · have h2 := hiff.mp h1
      rw [hoffs] at h2
      exact h2
  · intro hcond
    right
    apply hiff.mpr
    rw [hoffs]
    exact hcond

/-- C6, witness: the two-element swap at new index 0, matched to old index 1,
where the expected position `1 + 0 - 0 = 1` differs from `0`, so the `Move`
fires. -/
theorem pass6_move_condition_witness :
    (([some 1, some 0] : List Entry)[0]? = some (some 1) ∧
      1 < ([some 1, some 0] : List Entry).length) ∧
    (Patch.Move 1 0 ∈ pass6 ["a", "b"] ["b", "a"] [some 1, some 0] [some 1, some 0] ↔
      1 + (([some 1, some 0] : List Entry).take 0).count (none : Entry) -
        (([some 1, some 0] : List Entry).take 1).count (none : Entry) ≠ 0) :=
  ⟨⟨rfl, by decide⟩,
    pass6_move_condition ["a", "b"] ["b", "a"] [some 1, some 0] [some 1, some 0] 0 1
      rfl (by decide)⟩

/-- C7: after pass 3, a new position whose element has table counts
`nc = 1 ∧ oc = 1` is matched to `olno` (and `olno` back to it); a position with
any other count profile is still unmatched. -/
theorem pass3_unique_match (old new : List T) (i : ℕ) (x : T) (e : TableEntry)
    (hx : new[i]? = some x) (ht : tableOf old new x = some e) :
    ((e.nc = 1 ∧ e.oc = 1) →
      (state3 old new).2[i]? = some (some e.olno) ∧
        (state3 old new).1[e.olno]? = some (some i)) ∧
    (¬(e.nc = 1 ∧ e.oc = 1) → (state3 old new).2[i]? = some none) := by
  have hi : i < new.length := by
    by_contra hc
    rw [List.getElem?_eq_none (by omega)] at hx
    exact absurd hx (by simp)
  have hna := state3_na old new i
  rw [hx] at hna
  constructor
  · intro hcond
    have hum : uMatch (tableOf old new) x = some e.olno := by
      unfold uMatch
      rw [ht]
      show (if e.nc = 1 ∧ e.nc = e.oc then some e.olno else none) = some e.olno
      rw [if_pos ⟨hcond.1, by omega⟩]
    constructor
    · rw [hna]
      simp [hum]
    · exact (state3_Q3 old new).2.2.2.2 i x e.olno hi hx hum
  · intro hcond
    have hum : uMatch (tableOf old new) x = none := by
      unfold uMatch
      rw [ht]
      show (if e.nc = 1 ∧ e.nc = e.oc then some e.olno else none) = none
      rw [if_neg (fun hc => hcond ⟨hc.1, by omega⟩)]
    rw [hna]
    simp [hum]

/-- C7, witness: in the two-element swap, `"b"` occurs once in each sequence
(entry `⟨1, 1, 1⟩`), so new position 0 is matched to old position 1. -/
theorem pass3_unique_match_witness :
    (["b", "a"] : List String)[0]? = some "b" ∧
      tableOf ["a", "b"] ["b", "a"] "b" = some ⟨1, 1, 1⟩ ∧
      ((state3 ["a", "b"] ["b", "a"]).2[0]? = some (some 1) ∧
        (state3 ["a", "b"] ["b", "a"]).1[1]? = some (some 0)) := by
  refine ⟨rfl, rfl, ?_⟩
  have h := pass3_unique_match ["a", "b"] ["b", "a"] 0 "b" ⟨1, 1, 1⟩ rfl rfl
  exact h.1 ⟨rfl, rfl⟩

/-- C8: after pass 2, the table entry of every element occurring in the old
sequence records its occurrence count in each sequence, and `olno` is the last
(largest) old index holding that element. -/
theorem table_after_pass2 (old new : List T) (x : T) (h : 0 < old.count x) :
    ∃ e, tableOf old new x = some e ∧ e.nc = new.count x ∧ e.oc = old.count x ∧
      old[e.olno]? = some x ∧ ∀ k, e.olno < k → old[k]? ≠ some x := by
  have hmem : x ∈ old := List.count_pos_iff.mp h
  obtain ⟨e, he, hnc, hoc⟩ := tableOf_mem old new x (Or.inr hmem)
  obtain ⟨_, _, hlast⟩ := tableOf_char old new x e he
  obtain ⟨hb, hg, hl⟩ := hlast hmem
  exact ⟨e, he, hnc, hoc, hg, hl⟩

/-- C8, witness: `"a"` occurs twice in the old sequence (last index 2) and
once in the new one. -/
theorem table_after_pass2_witness :
    0 < (["a", "b", "a"] : List String).count "a" ∧
      (∃ e, tableOf ["a", "b", "a"] ["a"] "a" = some e ∧
        e.nc = (["a"] : List String).count "a" ∧
        e.oc = (["a", "b", "a"] : List String).count "a" ∧
        (["a", "b", "a"] : List String)[e.olno]? = some "a" ∧
        ∀ k, e.olno < k → (["a", "b", "a"] : List String)[k]? ≠ some "a") :=
  ⟨by decide, table_after_pass2 ["a", "b", "a"] ["a"] "a" (by decide)⟩

/-- C9: the two-element swap, `old = ["a","b"]`, `new = ["b","a"]`, yields
exactly `[Move(1,0), Move(0,1)]`. -/
theorem diff_swap_example :
    diff ["a", "b"] ["b", "a"] = [Patch.Move 1 0, Patch.Move 0 1] := by decide

/-- C10: matched positions always hold equal elements after passes 3, 4 and 5,
and consequently `diff` never emits an `Update` patch. -/
theorem matched_equal_no_update (old new : List T) :
    (∀ i j : ℕ, (state3 old new).2[i]? = some (some j) → old[j]? = new[i]?) ∧
    (∀ i j : ℕ, (state4 old new).2[i]? = some (some j) → old[j]? = new[i]?) ∧
    (∀ i j : ℕ, (state5 old new).2[i]? = some (some j) → old[j]? = new[i]?) ∧
    (∀ i : ℕ, Patch.Update i ∉ diff old new) := by
  refine ⟨fun i j h => ((Inv_state3 old new).2.2.1 i j h).2,
    fun i j h => ((Inv_state4 old new).2.2.1 i j h).2,
    fun i j h => ((Inv_state5 old new).2.2.1 i j h).2, ?_⟩
  intro i hmem
  have hsplit : diff old new = (pass6FstAux 0 0 (state5 old new).1).2 ++
      pass6SndAux old new (pass6FstAux 0 0 (state5 old new).1).1 0 0 (state5 old new).2 := rfl
  rw [hsplit] at hmem
  rcases List.mem_append.mp hmem with h1 | h1
  · obtain ⟨k, hk⟩ := delShape_all_delete 0 _ (pass6FstAux_delShape _ 0 0) _ h1
    exact absurd hk (by simp)
  · exact pass6SndAux_no_update old new _ (state5 old new).2 0 0
      (fun k j hk => by simpa using ((Inv_state5 old new).2.2.1 k j hk).2) i h1

end HDiff
